import Mathlib

/-!
Verification of dotman's path-normalization and mapping-store subsystem
(src/app.rs), as a shallow embedding in Lean 4.

Paths are Unix path strings.  `components` models Rust's
`Path::components()` on Unix: repeated separators are collapsed, `.`
segments are removed except in leading position, `..` is kept as a
`ParentDir` component.  `RPath` models a `PathBuf` as a flag for
absoluteness plus the list of normal-name parts; `pushComp` models
`PathBuf::push` of a single component (pushing an absolute path, as the
code does for the current directory, replaces the accumulated path).
-/

namespace Dotman

inductive RComponent where
  | rootDir
  | curDir
  | parentDir
  | normal (name : String)
  deriving DecidableEq

/-- Classification of a non-special, non-leading path segment, as
`Path::components` does it: `..` is `ParentDir`, anything else `Normal`.
(Empty and `.` segments are filtered out before this is applied.) -/
def segToComp (s : String) : RComponent :=
  if s = ".." then RComponent.parentDir else RComponent.normal s

/-- Splitting a character list at `/` separators (the segments of a Unix
path string, before any filtering). -/
def splitSegsAux (cur : List Char) : List Char → List (List Char)
  | [] => [cur.reverse]
  | c :: rest =>
    if c = '/' then cur.reverse :: splitSegsAux [] rest
    else splitSegsAux (c :: cur) rest

/-- The `/`-separated segments of a path string. -/
def splitSegs (s : String) : List String :=
  (splitSegsAux [] s.data).map (fun l => String.mk l)

/-- Model of `Path::components()` for a Unix path string. -/
def components (s : String) : List RComponent :=
  if s = "" then []
  else
    match splitSegs s with
    | [] => []
    | first :: rest =>
      let tailC := (rest.filter (fun t => !(t == "" || t == "."))).map segToComp
      if first = "" then RComponent.rootDir :: tailC
      else if first = "." then RComponent.curDir :: tailC
      else if first = ".." then RComponent.parentDir :: tailC
      else RComponent.normal first :: tailC

/-- Model of a `PathBuf`: absoluteness flag plus list of path segments. -/
structure RPath where
  abs : Bool
  parts : List String
  deriving DecidableEq

/-- One step of the loop body of `normalize_path` (src/app.rs:319-331):
`PathBuf::push` of one component, where pushing the current working
directory (an absolute path) replaces the accumulated result, and a
`..` component pops the last segment (`PathBuf::pop`). -/
def pushComp (cwd : List String) (r : RPath) : RComponent → RPath
  | RComponent.rootDir => ⟨true, []⟩
  | RComponent.normal n => ⟨r.abs, r.parts ++ [n]⟩
  | RComponent.curDir => ⟨true, cwd⟩
  | RComponent.parentDir => ⟨r.abs, r.parts.dropLast⟩

/-- The body of `normalize_path` (src/app.rs:311-333), factored over an
explicit component list: if the first component is a plain name the
result starts from the current working directory, then the components
are walked left to right. -/
def normalizeComps (cwd : List String) (cs : List RComponent) : RPath :=
  let init : RPath :=
    match cs.head? with
    | some (RComponent.normal _) => ⟨true, cwd⟩
    | _ => ⟨false, []⟩
  cs.foldl (pushComp cwd) init

/-- Model of `normalize_path` (src/app.rs:311-333).  `cwd` is the value
of `env::current_dir()` given as its list of path segments. -/
def normalize_path (cwd : List String) (s : String) : RPath :=
  normalizeComps cwd (components s)

/-- The characters of the `/`-joined segment list. -/
def joinParts : List String → List Char
  | [] => []
  | [n] => n.data
  | n :: rest => n.data ++ '/' :: joinParts rest

/-- Rendering of a `PathBuf` back to a string (`to_string_lossy`). -/
def RPath.render (p : RPath) : String :=
  if p.abs then String.mk ('/' :: joinParts p.parts)
  else String.mk (joinParts p.parts)

/-!
The mapping store (`FileMappings`, src/app.rs:226-304).  The Rust code
keeps a `BTreeMap<String, String>`; we model it as the association list
of its entries in strictly increasing key order (the order `BTreeMap`
iteration produces).  Lean's `String` order is lexicographic by code
point, which agrees with Rust's byte-lexicographic `Ord` for `String`
because UTF-8 encoding preserves code-point order.
-/

/-- Lexicographic order on character lists by code point.  On UTF-8
encoded strings this agrees with Rust's byte-lexicographic `Ord` for
`String`, the order `BTreeMap` sorts by. -/
def listLt : List Char → List Char → Bool
  | [], [] => false
  | [], _ :: _ => true
  | _ :: _, [] => false
  | a :: as, b :: bs =>
    if a.toNat < b.toNat then true
    else if b.toNat < a.toNat then false
    else listLt as bs

/-- The `BTreeMap` key order on strings. -/
def keyLt (a b : String) : Bool := listLt a.data b.data

/-- `BTreeMap` lookup on the sorted-entries representation. -/
def btLookup : List (String × String) → String → Option String
  | [], _ => none
  | (k', v') :: t, k => if k = k' then some v' else btLookup t k

/-- `BTreeMap` insert on the sorted-entries representation (overwrites
an existing binding, keeps keys sorted). -/
def btInsert : List (String × String) → String → String → List (String × String)
  | [], k, v => [(k, v)]
  | (k', v') :: t, k, v =>
    if keyLt k k' then (k, v) :: (k', v') :: t
    else if k = k' then (k, v) :: t
    else (k', v') :: btInsert t k v

/-- `BTreeMap` remove on the sorted-entries representation. -/
def btRemove : List (String × String) → String → List (String × String)
  | [], _ => []
  | (k', v') :: t, k => if k = k' then t else (k', v') :: btRemove t k

/-- Model of `FileMappings` (src/app.rs:226-230). -/
structure FileMappings where
  entries : List (String × String)
  workspace : String
  deriving DecidableEq

/-- Model of `FileMappings::strip_src` (src/app.rs:291-303): normalize
the source path, then if the home directory is a component-wise prefix
of it (`Path::strip_prefix`), replace that prefix with `~` followed by
the separator; otherwise use the full normalized path string.  `home`
is `dirs::home_dir()` as its list of path segments. -/
def strip_src (cwd home : List String) (src : String) : String :=
  let n := normalize_path cwd src
  if n.abs && home.isPrefixOf n.parts then
    "~" ++ "/" ++ String.mk (joinParts (n.parts.drop home.length))
  else n.render

/-- `PathBuf::push` of a path string onto a base path string (used for
`workspace.push(dest)`): an absolute right-hand side replaces the base. -/
def pathJoin (base d : String) : String :=
  if d.data.head? = some '/' then d
  else if base = "" then d
  else if base.data.getLast? = some '/' then base ++ d
  else base ++ "/" ++ d

instance {ε α : Type} [DecidableEq ε] [DecidableEq α] : DecidableEq (Except ε α) :=
  fun x y =>
  match x, y with
  | Except.error a, Except.error b =>
    if h : a = b then isTrue (h ▸ rfl)
    else isFalse fun e => h (Except.noConfusion e fun h' => h')
  | Except.ok a, Except.ok b =>
    if h : a = b then isTrue (h ▸ rfl)
    else isFalse fun e => h (Except.noConfusion e fun h' => h')
  | Except.error _, Except.ok _ => isFalse fun e => Except.noConfusion e
  | Except.ok _, Except.error _ => isFalse fun e => Except.noConfusion e

/-- Model of `FileMappings::add` (src/app.rs:277-287).  The Rust code
uses the `BTreeMap` entry API: an occupied entry is an error and the
map is left untouched; a vacant entry gets `dst` inserted.  The returned
pair is (result, state of the store after the call). -/
def FileMappings.add (cwd home : List String) (fm : FileMappings) (src dst : String) :
    Except String Unit × FileMappings :=
  let key := strip_src cwd home src
  if (btLookup fm.entries key).isSome then
    (Except.error "Entry already exists", fm)
  else
    (Except.ok (), { fm with entries := btInsert fm.entries key dst })

/-- Model of `FileMappings::contains` (src/app.rs:265-267). -/
def FileMappings.contains (cwd home : List String) (fm : FileMappings) (src : String) :
    Bool :=
  (btLookup fm.entries (strip_src cwd home src)).isSome

/-- Model of `FileMappings::remove` (src/app.rs:269-274). -/
def FileMappings.remove (cwd home : List String) (fm : FileMappings) (src : String) :
    Except String Unit × FileMappings :=
  let key := strip_src cwd home src
  if (btLookup fm.entries key).isSome then
    (Except.ok (), { fm with entries := btRemove fm.entries key })
  else
    (Except.error "Entry not exists", fm)

/-- Model of `FileMappings::get` (src/app.rs:254-263).  Note that the
source code looks the entry up under `src.to_string_lossy()` — the raw
path string as given — and does not call `strip_src`. -/
def FileMappings.get (fm : FileMappings) (src : String) : Except String String :=
  match btLookup fm.entries src with
  | some dst => Except.ok (pathJoin fm.workspace dst)
  | none => Except.error "Source file is not mapped"

/-!
Filesystem model and `App::link` (src/app.rs:79-141).  The filesystem
is a map from raw path strings to nodes; `exists`/`is_file` follow
symbolic links (as `Path::exists` / `Path::is_file` do), `fs::rename`
and symlink creation operate on the link itself.
-/

inductive FsNode where
  | file
  | dir
  | symlink (target : String)
  | absent
  deriving DecidableEq

abbrev FS := String → FsNode

/-- Symlink resolution with bounded depth (`stat` semantics; a cycle
deeper than the bound behaves like a lookup failure, as `ELOOP` does). -/
def resolveNode (fs : FS) : Nat → String → FsNode
  | 0, _ => FsNode.absent
  | fuel + 1, p =>
    match fs p with
    | FsNode.symlink t => resolveNode fs fuel t
    | n => n

/-- `Path::exists` (follows symlinks). -/
def fsExists (fs : FS) (p : String) : Bool :=
  !(resolveNode fs 64 p == FsNode.absent)

/-- `Path::is_file` (follows symlinks; true only for a regular file). -/
def fsIsFile (fs : FS) (p : String) : Bool :=
  resolveNode fs 64 p == FsNode.file

/-- The text of one component. -/
def compName : RComponent → String
  | RComponent.normal n => n
  | RComponent.parentDir => ".."
  | RComponent.curDir => "."
  | RComponent.rootDir => ""

/-- Rendering a component list back to a path string (used for
`Path::parent` and the ancestor list of `fs::create_dir_all`). -/
def renderComps : List RComponent → String
  | RComponent.rootDir :: rest => String.mk ('/' :: joinParts (rest.map compName))
  | cs => String.mk (joinParts (cs.map compName))

/-- `Path::parent`: drop the last component; `None` for `/` and for the
empty path. -/
def parentOf (p : String) : Option String :=
  match components p with
  | [] => none
  | cs =>
    if cs = [RComponent.rootDir] then none
    else some (renderComps cs.dropLast)

/-- The chain of ancestor paths `fs::create_dir_all` visits, shortest
first (for `/a/b`: `/`, `/a`, `/a/b`). -/
def ancestorPrefixes (p : String) : List String :=
  (List.range (components p).length).map
    (fun i => renderComps ((components p).take (i + 1)))

/-- One directory-creation pass (`fs::create_dir_all` semantics per
ancestor: an absent path is created as a directory; an existing path is
accepted only if it resolves to a directory, otherwise the walk stops
with an error, keeping directories already created). -/
def createDirs (fs : FS) : List String → Bool × FS
  | [] => (true, fs)
  | q :: rest =>
    match fs q with
    | FsNode.absent => createDirs (fun r => if r = q then FsNode.dir else fs r) rest
    | _ =>
      if resolveNode fs 64 q == FsNode.dir then createDirs fs rest
      else (false, fs)

/-- Model of `fs::create_dir_all`. -/
def create_dir_all (fs : FS) (p : String) : Bool × FS :=
  createDirs fs (ancestorPrefixes p)

/-- Model of `fs::rename src dst`: moves the node itself (does not
follow a symlink at `src`). -/
def fsRename (fs : FS) (src dst : String) : Bool × FS :=
  match fs src with
  | FsNode.absent => (false, fs)
  | n => (true, fun q => if q = dst then n else if q = src then FsNode.absent else fs q)

/-- Model of `std::os::unix::fs::symlink target linkPath`: creates a
symlink node at `linkPath`; fails if something already exists there. -/
def fsSymlink (fs : FS) (target linkPath : String) : Bool × FS :=
  match fs linkPath with
  | FsNode.absent =>
    (true, fun q => if q = linkPath then FsNode.symlink target else fs q)
  | _ => (false, fs)

/-- Combined mutable state of `App::link`: the filesystem and the
mapping store. -/
structure AppState where
  fs : FS
  fm : FileMappings

/-- The outcome of one `App::link` call, one constructor per early
`return` of src/app.rs:79-141 plus the success path. -/
inductive LinkResult where
  | srcMissing
  | srcNotRegular
  | mkdirFailed
  | addFailed
  | renameFailed
  | symlinkFailed
  | linked
  deriving DecidableEq

/-- Model of `App::link` (src/app.rs:79-141), in the source's exact
order: existence check, regular-file check, computing `dest_abs`,
creating parent directories, `FileMappings::add`, `fs::rename`, then
symlink creation; every failure returns immediately with the state
reached so far. -/
def App.link (cwd home : List String) (ws : String) (st : AppState)
    (source dest : String) : LinkResult × AppState :=
  if fsExists st.fs source = false then (LinkResult.srcMissing, st)
  else if fsIsFile st.fs source = false then (LinkResult.srcNotRegular, st)
  else
    match (match parentOf (pathJoin ws dest) with
           | some parent => create_dir_all st.fs parent
           | none => (true, st.fs)) with
    | (false, fs1) => (LinkResult.mkdirFailed, ⟨fs1, st.fm⟩)
    | (true, fs1) =>
      match FileMappings.add cwd home st.fm source dest with
      | (Except.error _, fm1) => (LinkResult.addFailed, ⟨fs1, fm1⟩)
      | (Except.ok _, fm1) =>
        match fsRename fs1 source (pathJoin ws dest) with
        | (false, fs2) => (LinkResult.renameFailed, ⟨fs2, fm1⟩)
        | (true, fs2) =>
          match fsSymlink fs2 (pathJoin ws dest) source with
          | (false, fs3) => (LinkResult.symlinkFailed, ⟨fs3, fm1⟩)
          | (true, fs3) => (LinkResult.linked, ⟨fs3, fm1⟩)

/-- A concrete filesystem for exercising `link` with a duplicate key:
`/src` is a regular file, the workspace `/ws` exists, and the
destination's parent `/ws/sub` does not exist yet. -/
def fsDup : FS := fun p =>
  if p = "/src" then FsNode.file
  else if p = "/ws" then FsNode.dir
  else if p = "/" then FsNode.dir
  else FsNode.absent

/-- A store that already maps the canonical key of `/src`. -/
def fmDup : FileMappings := ⟨[("/src", "old")], "/ws"⟩

/-- A concrete filesystem where the source is a directory. -/
def fsDir : FS := fun p =>
  if p = "/srcdir" then FsNode.dir
  else if p = "/ws" then FsNode.dir
  else if p = "/" then FsNode.dir
  else FsNode.absent

/-- A concrete filesystem where the source is a symbolic link to a
regular file. -/
def fsSym : FS := fun p =>
  if p = "/src" then FsNode.symlink "/t"
  else if p = "/t" then FsNode.file
  else if p = "/ws" then FsNode.dir
  else if p = "/" then FsNode.dir
  else FsNode.absent

/-!
Persistence (src/app.rs:244-252).  `save_entries` models
`serde_json::to_writer_pretty` on a `BTreeMap<String, String>`: a
pretty-printed JSON object with two-space indentation and the entries
in stored (sorted) key order; strings are escaped as serde_json does
(`"` and `\` get a backslash, the five short control escapes are used,
remaining control characters become `\u00xx` with lowercase hex, all
other characters are written verbatim).  `load_entries` models
`serde_json::from_reader` into a `BTreeMap<String, String>`: a JSON
object of string pairs with arbitrary interleaved whitespace; entries
are inserted in textual order (later duplicates overwrite); trailing
whitespace is allowed and anything else after the object is an error.
The `\uXXXX` decoder covers the basic-multilingual-plane code points
below the surrogate range, which includes everything `save_entries`
ever emits; surrogate-pair decoding is not modelled.
-/

/-- Lowercase hexadecimal digit. -/
def hexDigit (n : Nat) : Char :=
  if n < 10 then Char.ofNat (48 + n) else Char.ofNat (87 + n)

/-- serde_json's escaping of one character inside a JSON string. -/
def escChar (c : Char) : List Char :=
  if c = '"' then ['\\', '"']
  else if c = '\\' then ['\\', '\\']
  else if c = '\x08' then ['\\', 'b']
  else if c = '\x09' then ['\\', 't']
  else if c = '\x0a' then ['\\', 'n']
  else if c = '\x0c' then ['\\', 'f']
  else if c = '\x0d' then ['\\', 'r']
  else if c.toNat < 0x20 then
    ['\\', 'u', '0', '0', hexDigit (c.toNat / 16), hexDigit (c.toNat % 16)]
  else [c]

/-- serde_json's escaping of a whole string. -/
def escape (s : String) : List Char :=
  (s.data.map escChar).flatten

/-- One printed member line: two-space indent, quoted escaped key,
colon, space, quoted escaped value. -/
def memberChars (kv : String × String) : List Char :=
  ' ' :: ' ' :: '"' ::
    (escape kv.1 ++ '"' :: ':' :: ' ' :: '"' :: (escape kv.2 ++ ['"']))

/-- The member lines joined by `,\n`. -/
def membersChars : List (String × String) → List Char
  | [] => []
  | [kv] => memberChars kv
  | kv :: rest => memberChars kv ++ ',' :: '\n' :: membersChars rest

/-- Model of `FileMappings::save_entries` (src/app.rs:249-252):
`serde_json::to_writer_pretty` of the entries map. -/
def save_entries (es : List (String × String)) : String :=
  match es with
  | [] => String.mk ['\x7b', '\x7d']
  | _ => String.mk (['\x7b', '\n'] ++ membersChars es ++ ['\n', '\x7d'])

/-- JSON whitespace. -/
def isWs (c : Char) : Bool :=
  c = ' ' || c = '\n' || c = '\t' || c = '\r'

def skipWs : List Char → List Char
  | [] => []
  | c :: rest => if isWs c then skipWs rest else c :: rest

/-- Consume one expected character. -/
def expectChar (c : Char) : List Char → Option (List Char)
  | [] => none
  | x :: rest => if x = c then some rest else none

/-- The character denoted by a single-character JSON escape. -/
def unescChar (c : Char) : Option Char :=
  if c = '"' then some '"'
  else if c = '\\' then some '\\'
  else if c = '/' then some '/'
  else if c = 'b' then some '\x08'
  else if c = 'f' then some '\x0c'
  else if c = 'n' then some '\x0a'
  else if c = 'r' then some '\x0d'
  else if c = 't' then some '\x09'
  else none

/-- Value of one hexadecimal digit. -/
def hexVal (c : Char) : Option Nat :=
  if '0' ≤ c ∧ c ≤ '9' then some (c.toNat - 48)
  else if 'a' ≤ c ∧ c ≤ 'f' then some (c.toNat - 87)
  else if 'A' ≤ c ∧ c ≤ 'F' then some (c.toNat - 55)
  else none

/-- Scan the body of a JSON string (the opening quote already
consumed), returning the decoded characters and the input after the
closing quote. -/
def scanStr : List Char → Option (List Char × List Char)
  | [] => none
  | c :: rest =>
    if c = '"' then some ([], rest)
    else if c = '\\' then
      match rest with
      | [] => none
      | e :: rest2 =>
        if e = 'u' then
          match rest2 with
          | h1 :: h2 :: h3 :: h4 :: rest3 =>
            match hexVal h1, hexVal h2, hexVal h3, hexVal h4 with
            | some a, some b, some c3, some c4 =>
              let n := ((a * 16 + b) * 16 + c3) * 16 + c4
              if n < 0xd800 then
                (scanStr rest3).map (fun pr => (Char.ofNat n :: pr.1, pr.2))
              else none
            | _, _, _, _ => none
          | _ => none
        else
          match unescChar e with
          | some c' => (scanStr rest2).map (fun pr => (c' :: pr.1, pr.2))
          | none => none
    else (scanStr rest).map (fun pr => (c :: pr.1, pr.2))

/-- Parse the members of a JSON object (position: before a key, the
opening `{` already consumed, at least one member present), returning
them in textual order together with the input after the closing `}`. -/
def parseMembers : Nat → List Char → Option (List (String × String) × List Char)
  | 0, _ => none
  | fuel + 1, input =>
    match expectChar '"' (skipWs input) with
    | none => none
    | some r1 =>
      match scanStr r1 with
      | none => none
      | some (k, r2) =>
        match expectChar ':' (skipWs r2) with
        | none => none
        | some r3 =>
          match expectChar '"' (skipWs r3) with
          | none => none
          | some r4 =>
            match scanStr r4 with
            | none => none
            | some (v, r5) =>
              match skipWs r5 with
              | [] => none
              | c :: r7 =>
                if c = ',' then
                  match parseMembers fuel r7 with
                  | none => none
                  | some (more, r8) => some ((String.mk k, String.mk v) :: more, r8)
                else if c = '\x7d' then some ([(String.mk k, String.mk v)], r7)
                else none

/-- Parse a whole JSON object of string pairs, requiring only
whitespace after it (as `serde_json::from_reader`'s end check does). -/
def parseObj (input : List Char) : Option (List (String × String)) :=
  match expectChar '\x7b' (skipWs input) with
  | none => none
  | some r1 =>
    match expectChar '\x7d' (skipWs r1) with
    | some r2 => if (skipWs r2).isEmpty then some [] else none
    | none =>
      match parseMembers (input.length + 1) (skipWs r1) with
      | none => none
      | some (ms, r3) => if (skipWs r3).isEmpty then some ms else none

/-- Model of `FileMappings::load_entries` (src/app.rs:244-247): parse
the stream and collect the pairs into a `BTreeMap`. -/
def load_entries (workspace : String) (s : String) : Option FileMappings :=
  (parseObj s.data).map
    (fun ms => ⟨ms.foldl (fun es kv => btInsert es kv.1 kv.2) [], workspace⟩)

/-- A well-formed single path segment: what `env::current_dir()` and
`Path::components` can actually produce as a `Normal` component text. -/
abbrev GoodName (n : String) : Prop :=
  n ≠ "" ∧ n ≠ "." ∧ n ≠ ".." ∧ '/' ∉ n.data

/-- The `BTreeMap` representation invariant: entries in strictly
increasing key order. -/
abbrev entriesSorted (es : List (String × String)) : Prop :=
  es.Pairwise (fun a b => keyLt a.1 b.1 = true)

/-!
Helper lemmas about `normalize_path`.
-/

theorem pushComp_abs (cwd : List String) (r : RPath) (c : RComponent)
    (h : r.abs = true) : (pushComp cwd r c).abs = true := by
  cases c <;> simp_all [pushComp]

theorem foldl_pushComp_abs (cwd : List String) (cs : List RComponent) (r : RPath)
    (h : r.abs = true) : (cs.foldl (pushComp cwd) r).abs = true := by
  induction cs generalizing r with
  | nil => simpa using h
  | cons c t ih => exact ih _ (pushComp_abs cwd r c h)

theorem foldl_pushComp_normals (cwd : List String) (l : List String) (r : RPath) :
    (l.map RComponent.normal).foldl (pushComp cwd) r = ⟨r.abs, r.parts ++ l⟩ := by
  induction l generalizing r with
  | nil => simp
  | cons n t ih => simp [pushComp, ih]

theorem splitSegsAux_no_slash (cs : List Char) (cur : List Char) (hcur : '/' ∉ cur) :
    ∀ l ∈ splitSegsAux cur cs, '/' ∉ l := by
  induction cs generalizing cur with
  | nil =>
    intro l hl
    simp only [splitSegsAux, List.mem_singleton] at hl
    subst hl
    simpa using hcur
  | cons c rest ih =>
    intro l hl
    by_cases hc : c = '/'
    · simp only [splitSegsAux, if_pos hc, List.mem_cons] at hl
      rcases hl with hl | hl
      · subst hl; simpa using hcur
      · exact ih [] (by simp) l hl
    · simp only [splitSegsAux, if_neg hc] at hl
      refine ih (c :: cur) ?_ l hl
      simp only [List.mem_cons]
      rintro (h | h)
      · exact hc h.symm
      · exact hcur h

theorem splitSegs_no_slash (s : String) : ∀ t ∈ splitSegs s, '/' ∉ t.data := by
  intro t ht
  simp only [splitSegs, List.mem_map] at ht
  obtain ⟨l, hl, rfl⟩ := ht
  exact splitSegsAux_no_slash s.data [] (by simp) l hl

theorem splitSegsAux_ne_nil (cs : List Char) (cur : List Char) :
    splitSegsAux cur cs ≠ [] := by
  induction cs generalizing cur with
  | nil => simp [splitSegsAux]
  | cons c rest ih =>
    by_cases hc : c = '/'
    · simp [splitSegsAux, hc]
    · simp only [splitSegsAux, if_neg hc]
      exact ih _

theorem splitSegs_ne_nil (s : String) : splitSegs s ≠ [] := by
  unfold splitSegs
  simp only [ne_eq, List.map_eq_nil_iff]
  exact splitSegsAux_ne_nil s.data []

theorem components_eq_cons (s : String) (first : String) (rest : List String)
    (hs : ¬ s = "") (hsp : splitSegs s = first :: rest) :
    components s =
      (if first = "" then
        RComponent.rootDir ::
          (rest.filter (fun t => !(t == "" || t == "."))).map segToComp
       else if first = "." then
        RComponent.curDir ::
          (rest.filter (fun t => !(t == "" || t == "."))).map segToComp
       else if first = ".." then
        RComponent.parentDir ::
          (rest.filter (fun t => !(t == "" || t == "."))).map segToComp
       else
        RComponent.normal first ::
          (rest.filter (fun t => !(t == "" || t == "."))).map segToComp) := by
  unfold components
  rw [if_neg hs, hsp]

theorem components_normal_good (s : String) :
    ∀ c ∈ components s, ∀ n, c = RComponent.normal n → GoodName n := by
  intro c hc n hn
  subst hn
  by_cases hs : s = ""
  · rw [hs] at hc; simp [components] at hc
  · cases hsp : splitSegs s with
    | nil => exact absurd hsp (splitSegs_ne_nil s)
    | cons first rest =>
      rw [components_eq_cons s first rest hs hsp] at hc
      have htail : RComponent.normal n ∈
          (rest.filter fun t => !(t == "" || t == ".")).map segToComp → GoodName n := by
        intro hm
        simp only [List.mem_map] at hm
        obtain ⟨t, ht, hseg⟩ := hm
        simp only [List.mem_filter] at ht
        obtain ⟨htr, htf⟩ := ht
        have h1 : t ≠ "" ∧ t ≠ "." := by simpa using htf
        unfold segToComp at hseg
        by_cases h2 : t = ".."
        · rw [if_pos h2] at hseg; simp at hseg
        · rw [if_neg h2] at hseg
          have ht' : t = n := by simpa using hseg
          subst ht'
          refine ⟨h1.1, h1.2, h2, ?_⟩
          exact splitSegs_no_slash s t (hsp ▸ List.mem_cons_of_mem first htr)
      split_ifs at hc with h1 h2 h3
      · simp only [List.mem_cons] at hc
        rcases hc with hc | hc
        · simp at hc
        · exact htail hc
      · simp only [List.mem_cons] at hc
        rcases hc with hc | hc
        · simp at hc
        · exact htail hc
      · simp only [List.mem_cons] at hc
        rcases hc with hc | hc
        · simp at hc
        · exact htail hc
      · simp only [List.mem_cons] at hc
        rcases hc with hc | hc
        · have hfn : n = first := by simpa using hc
          subst hfn
          refine ⟨h1, h2, h3, ?_⟩
          exact splitSegs_no_slash s n (hsp ▸ List.mem_cons_self n rest)
        · exact htail hc

theorem pushComp_parts_good (cwd : List String) (hcwd : ∀ n ∈ cwd, GoodName n)
    (r : RPath) (c : RComponent) (hr : ∀ n ∈ r.parts, GoodName n)
    (hc : ∀ m, c = RComponent.normal m → GoodName m) :
    ∀ n ∈ (pushComp cwd r c).parts, GoodName n := by
  cases c with
  | rootDir => simp [pushComp]
  | curDir => simpa [pushComp] using hcwd
  | parentDir =>
    intro n hn
    simp only [pushComp] at hn
    exact hr n ((List.dropLast_sublist r.parts).subset hn)
  | normal m =>
    intro n hn
    simp only [pushComp, List.mem_append, List.mem_singleton] at hn
    rcases hn with hn | hn
    · exact hr n hn
    · subst hn; exact hc n rfl

theorem foldl_parts_good (cwd : List String) (hcwd : ∀ n ∈ cwd, GoodName n)
    (cs : List RComponent) (hcs : ∀ c ∈ cs, ∀ m, c = RComponent.normal m → GoodName m)
    (r : RPath) (hr : ∀ n ∈ r.parts, GoodName n) :
    ∀ n ∈ (cs.foldl (pushComp cwd) r).parts, GoodName n := by
  induction cs generalizing r with
  | nil => exact hr
  | cons c t ih =>
    exact ih (fun c' h' => hcs c' (List.mem_cons_of_mem c h'))
      _ (pushComp_parts_good cwd hcwd r c hr (hcs c (List.mem_cons_self c t)))

theorem normalize_parts_good (cwd : List String) (hcwd : ∀ n ∈ cwd, GoodName n)
    (s : String) : ∀ n ∈ (normalize_path cwd s).parts, GoodName n := by
  unfold normalize_path normalizeComps
  apply foldl_parts_good cwd hcwd _ (components_normal_good s)
  cases h : (components s).head? with
  | none => simp
  | some c =>
    cases c with
    | normal m => simpa using hcwd
    | rootDir => simp
    | curDir => simp
    | parentDir => simp

theorem splitSegsAux_append_no_slash (l : List Char) (cur rest : List Char)
    (h : '/' ∉ l) :
    splitSegsAux cur (l ++ rest) = splitSegsAux (l.reverse ++ cur) rest := by
  induction l generalizing cur with
  | nil => simp
  | cons c t ih =>
    simp only [List.mem_cons, not_or] at h
    have hc : ¬ c = '/' := fun e => h.1 e.symm
    show splitSegsAux cur (c :: (t ++ rest)) = _
    simp only [splitSegsAux, if_neg hc]
    rw [ih (c :: cur) h.2]
    simp

theorem splitSegsAux_joinParts (parts : List String)
    (h : ∀ n ∈ parts, '/' ∉ n.data) (hne : parts ≠ []) :
    splitSegsAux [] (joinParts parts) = parts.map String.data := by
  induction parts with
  | nil => exact absurd rfl hne
  | cons n t ih =>
    cases t with
    | nil =>
      show splitSegsAux [] n.data = [n.data]
      have := splitSegsAux_append_no_slash n.data [] []
        (h n (List.mem_singleton.mpr rfl))
      simpa [splitSegsAux] using this
    | cons m t2 =>
      show splitSegsAux [] (n.data ++ '/' :: joinParts (m :: t2)) = _
      rw [splitSegsAux_append_no_slash n.data [] ('/' :: joinParts (m :: t2))
        (h n (List.mem_cons_self n (m :: t2)))]
      simp only [splitSegsAux, if_pos rfl, List.append_nil, List.reverse_reverse]
      rw [ih (fun x hx => h x (List.mem_cons_of_mem n hx)) (by simp)]
      simp

theorem map_mk_data (l : List String) : l.map (fun x => String.mk x.data) = l := by
  induction l with
  | nil => rfl
  | cons a t ih => rw [List.map_cons, ih]

theorem components_render_abs (parts : List String)
    (hg : ∀ n ∈ parts, GoodName n) :
    components (RPath.render ⟨true, parts⟩) =
      RComponent.rootDir :: parts.map RComponent.normal := by
  cases parts with
  | nil => decide
  | cons n t =>
    have hdata : (RPath.render ⟨true, n :: t⟩).data = '/' :: joinParts (n :: t) := rfl
    have hne : ¬ RPath.render ⟨true, n :: t⟩ = "" := by
      intro hEq
      have := congrArg String.data hEq
      rw [hdata] at this
      simp at this
    have hsp : splitSegs (RPath.render ⟨true, n :: t⟩) = "" :: n :: t := by
      unfold splitSegs
      rw [hdata]
      have hsplit : splitSegsAux [] ('/' :: joinParts (n :: t)) =
          [] :: splitSegsAux [] (joinParts (n :: t)) := by
        simp [splitSegsAux]
      rw [hsplit, splitSegsAux_joinParts (n :: t) (fun x hx => (hg x hx).2.2.2) (by simp)]
      show ((([] : List Char) :: (n :: t).map String.data).map fun l => String.mk l) = _
      rw [List.map_cons, List.map_map]
      show ("" :: (n :: t).map (fun x => String.mk x.data)) = _
      rw [map_mk_data]
    rw [components_eq_cons _ "" (n :: t) hne hsp, if_pos rfl]
    have hfilter : (n :: t).filter (fun x => !(x == "" || x == ".")) = n :: t := by
      apply List.filter_eq_self.mpr
      intro a ha
      have := hg a ha
      simp [this.1, this.2.1]
    rw [hfilter]
    congr 1
    apply List.map_congr_left
    intro a ha
    unfold segToComp
    rw [if_neg (hg a ha).2.2.1]

/-- C4 counterexample input: the path `../foo`. -/
theorem C4_counterexample :
    normalize_path ["cw"] ((normalize_path ["cw"] "../foo").render) ≠
      normalize_path ["cw"] "../foo" ∧
    normalize_path ["cw"] "../foo" = ⟨false, ["foo"]⟩ ∧
    normalize_path ["cw"] ((normalize_path ["cw"] "../foo").render) =
      ⟨true, ["cw", "foo"]⟩ := by decide

/-- C4 (amended): normalization is idempotent for every input whose
normalized result is absolute or empty; it is not idempotent for inputs
starting with `..` whose result is a nonempty relative path. -/
theorem C4_normalize_idempotent_amended (cwd : List String) (s : String)
    (hcwd : ∀ n ∈ cwd, GoodName n)
    (h : (normalize_path cwd s).abs = true ∨ normalize_path cwd s = ⟨false, []⟩) :
    normalize_path cwd ((normalize_path cwd s).render) = normalize_path cwd s := by
  rcases h with h | h
  · have hg := normalize_parts_good cwd hcwd s
    rcases hq : normalize_path cwd s with ⟨b, parts⟩
    rw [hq] at h hg
    simp only at h hg
    subst h
    unfold normalize_path
    rw [components_render_abs parts hg]
    unfold normalizeComps
    simp only [List.head?_cons, List.foldl_cons]
    show (parts.map RComponent.normal).foldl (pushComp cwd) ⟨true, []⟩ = _
    rw [foldl_pushComp_normals]
    simp
  · rw [h]
    rfl

/-- C4 witness for the amended theorem, at the input `/a/b`. -/
theorem C4_normalize_idempotent_amended_witness :
    (∀ n ∈ ["cw"], GoodName n) ∧
    (normalize_path ["cw"] "/a/b").abs = true ∧
    normalize_path ["cw"] ((normalize_path ["cw"] "/a/b").render) =
      normalize_path ["cw"] "/a/b" :=
  ⟨by decide, by decide,
    C4_normalize_idempotent_amended ["cw"] "/a/b" (by decide) (Or.inl (by decide))⟩

/-- C5 counterexample: `normalize("../foo")` is not absolute. -/
theorem C5_counterexample :
    (normalize_path ["cw"] "../foo").abs = false ∧
    normalize_path ["cw"] "../foo" = ⟨false, ["foo"]⟩ := by decide

/-- C5 (amended): `normalize_path` returns an absolute path for every
nonempty input whose first component is not `..`; inputs starting with
`..` may produce a relative (or empty) result. -/
theorem C5_normalize_absolute_amended (cwd : List String) (s : String)
    (c : RComponent) (h : (components s).head? = some c)
    (hc : c ≠ RComponent.parentDir) :
    (normalize_path cwd s).abs = true := by
  unfold normalize_path normalizeComps
  cases hcs : components s with
  | nil => rw [hcs] at h; simp at h
  | cons c0 t =>
    rw [hcs] at h
    simp only [List.head?_cons, Option.some.injEq] at h
    subst h
    cases c0 with
    | parentDir => exact absurd rfl hc
    | rootDir => exact foldl_pushComp_abs cwd t ⟨true, []⟩ rfl
    | curDir => exact foldl_pushComp_abs cwd t ⟨true, cwd⟩ rfl
    | normal m => exact foldl_pushComp_abs cwd t ⟨true, cwd ++ [m]⟩ rfl

/-- C5 witness for the amended theorem, at the bare name `foo`. -/
theorem C5_normalize_absolute_amended_witness :
    (components "foo").head? = some (RComponent.normal "foo") ∧
    (normalize_path ["cw"] "foo").abs = true :=
  ⟨by decide, C5_normalize_absolute_amended ["cw"] "foo" (RComponent.normal "foo")
    (by decide) (by decide)⟩

/-- C6: a `.` component re-anchors the accumulated result to the
current working directory (it is not a no-op): `pushComp` on `CurDir`
replaces any accumulated result with the cwd; walking the component
sequence `/a`, `.`, `b` with cwd `C` yields `C/b`; and
`normalize("foo/bar")` equals `normalize("./foo/bar")`. -/
theorem C6_dot_reanchors (cwd : List String) (r : RPath) :
    pushComp cwd r RComponent.curDir = ⟨true, cwd⟩ ∧
    normalizeComps cwd [RComponent.rootDir, RComponent.normal "a",
      RComponent.curDir, RComponent.normal "b"] = ⟨true, cwd ++ ["b"]⟩ ∧
    normalize_path cwd "foo/bar" = normalize_path cwd "./foo/bar" := by
  refine ⟨rfl, ?_, ?_⟩
  · show RPath.mk true (cwd ++ ["b"]) = _
    rfl
  · rfl

/-- C1: paths that normalize alike get identical canonical keys, and
`contains`, `add` and `remove` all derive the key through the same
`strip_src` function, so any two equivalent spellings are treated
identically by all three operations. -/
theorem C1_key_consistency (cwd home : List String) (p1 p2 : String)
    (h : normalize_path cwd p1 = normalize_path cwd p2) :
    strip_src cwd home p1 = strip_src cwd home p2 ∧
    (∀ fm : FileMappings,
      FileMappings.contains cwd home fm p1 = FileMappings.contains cwd home fm p2) ∧
    (∀ (fm : FileMappings) (d : String),
      FileMappings.add cwd home fm p1 d = FileMappings.add cwd home fm p2 d) ∧
    (∀ fm : FileMappings,
      FileMappings.remove cwd home fm p1 = FileMappings.remove cwd home fm p2) := by
  have hk : strip_src cwd home p1 = strip_src cwd home p2 := by
    unfold strip_src
    rw [h]
  refine ⟨hk, ?_, ?_, ?_⟩
  · intro fm
    unfold FileMappings.contains
    rw [hk]
  · intro fm d
    unfold FileMappings.add
    rw [hk]
  · intro fm
    unfold FileMappings.remove
    rw [hk]

/-- C1 witness: the relative spelling `./foo` and the absolute spelling
`/cw/foo` under cwd `/cw`. -/
theorem C1_key_consistency_witness :
    normalize_path ["cw"] "./foo" = normalize_path ["cw"] "/cw/foo" ∧
    strip_src ["cw"] ["home", "u"] "./foo" = strip_src ["cw"] ["home", "u"] "/cw/foo" :=
  ⟨by decide,
    (C1_key_consistency ["cw"] ["home", "u"] "./foo" "/cw/foo" (by decide)).1⟩

/-- C9: when the normalized path lies under the home directory the
canonical key is `~` + separator + the verbatim remainder, and home ++
remainder reconstructs the normalized path; otherwise the key is the
full normalized path string. -/
theorem C9_home_rewrite (cwd home : List String) (p : String) :
    if ((normalize_path cwd p).abs &&
        home.isPrefixOf (normalize_path cwd p).parts) = true then
      strip_src cwd home p =
        "~" ++ "/" ++
          String.mk (joinParts ((normalize_path cwd p).parts.drop home.length)) ∧
      ("~" ++ "/").data <+: (strip_src cwd home p).data ∧
      (⟨true, home ++ (normalize_path cwd p).parts.drop home.length⟩ : RPath) =
        normalize_path cwd p
    else
      strip_src cwd home p = (normalize_path cwd p).render := by
  by_cases hb : ((normalize_path cwd p).abs &&
      home.isPrefixOf (normalize_path cwd p).parts) = true
  · rw [if_pos hb]
    have hA : strip_src cwd home p =
        "~" ++ "/" ++
          String.mk (joinParts ((normalize_path cwd p).parts.drop home.length)) := by
      unfold strip_src
      rw [if_pos hb]
    refine ⟨hA, ?_, ?_⟩
    · rw [hA]
      refine ⟨(joinParts ((normalize_path cwd p).parts.drop home.length)), ?_⟩
      simp [String.data_append]
    · rw [Bool.and_eq_true] at hb
      have habs : (normalize_path cwd p).abs = true := hb.1
      have hpre : home <+: (normalize_path cwd p).parts :=
        List.isPrefixOf_iff_prefix.mp hb.2
      have happ : home ++ (normalize_path cwd p).parts.drop home.length =
          (normalize_path cwd p).parts := List.prefix_iff_eq_append.mp hpre
      rcases hq : normalize_path cwd p with ⟨b, parts⟩
      rw [hq] at habs happ
      simp only at habs happ
      subst habs
      rw [happ]
  · rw [if_neg hb]
    unfold strip_src
    rw [if_neg hb]

/-- C9 witness: the path `/home/u/.bashrc` under home `/home/u`. -/
theorem C9_home_rewrite_witness :
    strip_src ["cw"] ["home", "u"] "/home/u/.bashrc" =
      "~" ++ "/" ++ String.mk (joinParts [".bashrc"]) ∧
    (⟨true, ["home", "u"] ++ [".bashrc"]⟩ : RPath) =
      normalize_path ["cw"] "/home/u/.bashrc" := by
  have h := C9_home_rewrite ["cw"] ["home", "u"] "/home/u/.bashrc"
  rw [if_pos (by decide)] at h
  exact ⟨h.1, h.2.2⟩

/-!
Lemmas about the sorted-entries `BTreeMap` model.
-/

theorem btLookup_insert_self (es : List (String × String)) (k v : String) :
    btLookup (btInsert es k v) k = some v := by
  induction es with
  | nil => simp [btInsert, btLookup]
  | cons e t ih =>
    obtain ⟨k', v'⟩ := e
    by_cases h1 : keyLt k k'
    · simp [btInsert, h1, btLookup]
    · by_cases h2 : k = k'
      · subst h2
        simp [btInsert, h1, btLookup]
      · simp [btInsert, h1, h2, btLookup, ih]

theorem btLookup_insert_ne (es : List (String × String)) (k v r : String)
    (h : r ≠ k) : btLookup (btInsert es k v) r = btLookup es r := by
  induction es with
  | nil => simp [btInsert, btLookup, h]
  | cons e t ih =>
    obtain ⟨k', v'⟩ := e
    by_cases h1 : keyLt k k'
    · simp [btInsert, h1, btLookup, h]
    · by_cases h2 : k = k'
      · subst h2
        simp [btInsert, h1, btLookup, h]
      · by_cases h3 : r = k'
        · simp [btInsert, h1, h2, btLookup, h3]
        · simp [btInsert, h1, h2, btLookup, h3, ih]

theorem add_occupied (cwd home : List String) (fm : FileMappings) (p d : String)
    (h : (btLookup fm.entries (strip_src cwd home p)).isSome = true) :
    FileMappings.add cwd home fm p d = (Except.error "Entry already exists", fm) := by
  unfold FileMappings.add
  rw [if_pos h]

theorem add_vacant (cwd home : List String) (fm : FileMappings) (p d : String)
    (h : (btLookup fm.entries (strip_src cwd home p)).isSome = false) :
    FileMappings.add cwd home fm p d =
      (Except.ok (),
        { fm with entries := btInsert fm.entries (strip_src cwd home p) d }) := by
  unfold FileMappings.add
  rw [if_neg (by simp [h])]

/-- C8: after a successful `add(p, d)`, a second `add(p, d2)` fails
with the duplicate-entry error, the table is exactly as after the first
call, and the existing entry still maps the key of `p` to `d`. -/
theorem C8_no_duplicate (cwd home : List String) (fm : FileMappings) (p d d2 : String)
    (hok : (FileMappings.add cwd home fm p d).1 = Except.ok ()) :
    (FileMappings.add cwd home (FileMappings.add cwd home fm p d).2 p d2).1 =
      Except.error "Entry already exists" ∧
    (FileMappings.add cwd home (FileMappings.add cwd home fm p d).2 p d2).2 =
      (FileMappings.add cwd home fm p d).2 ∧
    btLookup ((FileMappings.add cwd home fm p d).2).entries (strip_src cwd home p) =
      some d := by
  by_cases hg : (btLookup fm.entries (strip_src cwd home p)).isSome = true
  · rw [add_occupied cwd home fm p d hg] at hok
    exact Except.noConfusion hok
  · have hv := add_vacant cwd home fm p d (by simpa using hg)
    rw [hv]
    have hsome : (btLookup
        ({ fm with entries := btInsert fm.entries (strip_src cwd home p) d }
          : FileMappings).entries (strip_src cwd home p)).isSome = true := by
      show (btLookup (btInsert fm.entries (strip_src cwd home p) d)
        (strip_src cwd home p)).isSome = true
      rw [btLookup_insert_self]
      rfl
    rw [add_occupied cwd home _ p d2 hsome]
    refine ⟨rfl, rfl, ?_⟩
    show btLookup (btInsert fm.entries (strip_src cwd home p) d)
      (strip_src cwd home p) = some d
    exact btLookup_insert_self fm.entries (strip_src cwd home p) d

/-- C8 witness: adding `./Cargo.toml` twice to an initially empty
store. -/
theorem C8_no_duplicate_witness :
    (FileMappings.add ["cw"] ["home", "u"] ⟨[], "/ws"⟩ "./Cargo.toml" "DestCargo.toml").1 =
      Except.ok () ∧
    (FileMappings.add ["cw"] ["home", "u"]
      (FileMappings.add ["cw"] ["home", "u"] ⟨[], "/ws"⟩ "./Cargo.toml" "DestCargo.toml").2
      "./Cargo.toml" "Other").1 = Except.error "Entry already exists" :=
  ⟨by decide,
    (C8_no_duplicate ["cw"] ["home", "u"] ⟨[], "/ws"⟩ "./Cargo.toml" "DestCargo.toml"
      "Other" (by decide)).1⟩

/-- C7 counterexample: `add("./Cargo.toml", "Dest")` succeeds, but
`resolve` on the very same spelling fails, because `get` looks the
entry up under the raw path string instead of the canonical key. -/
theorem C7_counterexample :
    (FileMappings.add ["cw"] ["home", "u"] ⟨[], "/ws"⟩ "./Cargo.toml" "Dest").1 =
      Except.ok () ∧
    FileMappings.get
      (FileMappings.add ["cw"] ["home", "u"] ⟨[], "/ws"⟩ "./Cargo.toml" "Dest").2
      "./Cargo.toml" = Except.error "Source file is not mapped" := by decide

/-- C7 (amended): `resolve` looks the entry up under the raw source
string, not under the canonical key; after a successful `add(p, d)`,
`resolve(q)` returns workspace-joined `d` exactly for the spelling `q`
whose raw string equals the canonical key of `p`, and any other
spelling not already a raw key of the table fails with the
not-mapped error. -/
theorem C7_resolve_amended (cwd home : List String) (fm : FileMappings)
    (p d q : String)
    (hok : (FileMappings.add cwd home fm p d).1 = Except.ok ())
    (hq : q = strip_src cwd home p) :
    FileMappings.get (FileMappings.add cwd home fm p d).2 q =
      Except.ok (pathJoin fm.workspace d) ∧
    (∀ r, r ≠ strip_src cwd home p → btLookup fm.entries r = none →
      FileMappings.get (FileMappings.add cwd home fm p d).2 r =
        Except.error "Source file is not mapped") := by
  by_cases hg : (btLookup fm.entries (strip_src cwd home p)).isSome = true
  · rw [add_occupied cwd home fm p d hg] at hok
    exact Except.noConfusion hok
  · have hv := add_vacant cwd home fm p d (by simpa using hg)
    rw [hv]
    constructor
    · subst hq
      show FileMappings.get
        { fm with entries := btInsert fm.entries (strip_src cwd home p) d }
        (strip_src cwd home p) = _
      unfold FileMappings.get
      rw [show btLookup
        ({ fm with entries := btInsert fm.entries (strip_src cwd home p) d }
          : FileMappings).entries (strip_src cwd home p) = some d from
        btLookup_insert_self fm.entries (strip_src cwd home p) d]
    · intro r hr hnone
      show FileMappings.get
        { fm with entries := btInsert fm.entries (strip_src cwd home p) d } r = _
      unfold FileMappings.get
      rw [show btLookup
        ({ fm with entries := btInsert fm.entries (strip_src cwd home p) d }
          : FileMappings).entries r = btLookup fm.entries r from
        btLookup_insert_ne fm.entries (strip_src cwd home p) d r hr, hnone]

/-- C7 witness for the amended theorem: after adding `./Cargo.toml`,
resolving the key spelling `/cw/Cargo.toml` yields the workspace-joined
destination. -/
theorem C7_resolve_amended_witness :
    (FileMappings.add ["cw"] ["home", "u"] ⟨[], "/ws"⟩ "./Cargo.toml" "Dest").1 =
      Except.ok () ∧
    "/cw/Cargo.toml" = strip_src ["cw"] ["home", "u"] "./Cargo.toml" ∧
    FileMappings.get
      (FileMappings.add ["cw"] ["home", "u"] ⟨[], "/ws"⟩ "./Cargo.toml" "Dest").2
      "/cw/Cargo.toml" = Except.ok (pathJoin "/ws" "Dest") :=
  ⟨by decide, by decide,
    (C7_resolve_amended ["cw"] ["home", "u"] ⟨[], "/ws"⟩ "./Cargo.toml" "Dest"
      "/cw/Cargo.toml" (by decide) (by decide)).1⟩

/-!
Lemmas about `App::link`.
-/

theorem createDirs_frame (l : List String) (fs : FS) (p : String) :
    (createDirs fs l).2 p = fs p ∨
      (fs p = FsNode.absent ∧ (createDirs fs l).2 p = FsNode.dir) := by
  induction l generalizing fs with
  | nil => left; rfl
  | cons q rest ih =>
    cases hq : fs q with
    | absent =>
      have hred : createDirs fs (q :: rest) =
          createDirs (fun r => if r = q then FsNode.dir else fs r) rest := by
        conv_lhs => unfold createDirs
        rw [hq]
      rw [hred]
      rcases ih (fun r => if r = q then FsNode.dir else fs r) with h | h
      · rw [h]
        by_cases hp : p = q
        · subst hp
          right
          exact ⟨hq, by simp⟩
        · left
          simp [hp]
      · obtain ⟨ha, hb⟩ := h
        by_cases hp : p = q
        · subst hp
          right
          exact ⟨hq, hb⟩
        · rw [if_neg hp] at ha
          right
          exact ⟨ha, hb⟩
    | file =>
      have hred : createDirs fs (q :: rest) =
          (if resolveNode fs 64 q == FsNode.dir then createDirs fs rest
           else (false, fs)) := by
        conv_lhs => unfold createDirs
        rw [hq]
      rw [hred]
      by_cases hres : (resolveNode fs 64 q == FsNode.dir) = true
      · rw [if_pos hres]
        exact ih fs
      · rw [if_neg hres]
        left
        rfl
    | dir =>
      have hred : createDirs fs (q :: rest) =
          (if resolveNode fs 64 q == FsNode.dir then createDirs fs rest
           else (false, fs)) := by
        conv_lhs => unfold createDirs
        rw [hq]
      rw [hred]
      by_cases hres : (resolveNode fs 64 q == FsNode.dir) = true
      · rw [if_pos hres]
        exact ih fs
      · rw [if_neg hres]
        left
        rfl
    | symlink t =>
      have hred : createDirs fs (q :: rest) =
          (if resolveNode fs 64 q == FsNode.dir then createDirs fs rest
           else (false, fs)) := by
        conv_lhs => unfold createDirs
        rw [hq]
      rw [hred]
      by_cases hres : (resolveNode fs 64 q == FsNode.dir) = true
      · rw [if_pos hres]
        exact ih fs
      · rw [if_neg hres]
        left
        rfl

/-- C2 counterexample: with the key of `/src` already mapped and the
destination `sub/f` whose parent directory does not exist, `link` fails
with the duplicate-key error but has already created `/ws/sub` — a
filesystem mutation before the duplicate check. -/
theorem C2_counterexample :
    (App.link ["cw"] ["home", "u"] "/ws" ⟨fsDup, fmDup⟩ "/src" "sub/f").1 =
      LinkResult.addFailed ∧
    fsDup "/ws/sub" = FsNode.absent ∧
    (App.link ["cw"] ["home", "u"] "/ws" ⟨fsDup, fmDup⟩ "/src" "sub/f").2.fs
      "/ws/sub" = FsNode.dir := by decide

/-- C2 (amended): on a duplicate key (with a valid source and
successful directory creation), `link` fails with the duplicate-key
error, the mapping table is untouched, no rename and no symlink
creation happen, and the only filesystem changes are previously absent
paths now being directories (the parent-directory creation that
precedes the duplicate check). -/
theorem C2_duplicate_amended (cwd home : List String) (ws : String) (st : AppState)
    (source dest : String)
    (h1 : fsExists st.fs source = true)
    (h2 : fsIsFile st.fs source = true)
    (h3 : FileMappings.contains cwd home st.fm source = true)
    (h4 : ∀ parent, parentOf (pathJoin ws dest) = some parent →
      (create_dir_all st.fs parent).1 = true) :
    (App.link cwd home ws st source dest).1 = LinkResult.addFailed ∧
    (App.link cwd home ws st source dest).2.fm = st.fm ∧
    ∀ p, (App.link cwd home ws st source dest).2.fs p = st.fs p ∨
      (st.fs p = FsNode.absent ∧
        (App.link cwd home ws st source dest).2.fs p = FsNode.dir) := by
  have hn1 : ¬ (fsExists st.fs source = false) := by
    rw [h1]
    intro e
    cases e
  have hn2 : ¬ (fsIsFile st.fs source = false) := by
    rw [h2]
    intro e
    cases e
  have hadd : FileMappings.add cwd home st.fm source dest =
      (Except.error "Entry already exists", st.fm) :=
    add_occupied cwd home st.fm source dest h3
  unfold App.link
  rw [if_neg hn1, if_neg hn2, hadd]
  cases hpar : parentOf (pathJoin ws dest) with
  | none => exact ⟨rfl, rfl, fun p => Or.inl rfl⟩
  | some parent =>
    have hcd1 := h4 parent hpar
    cases hcd : create_dir_all st.fs parent with
    | mk b fs1 =>
      have hb : b = true := by
        rw [hcd] at hcd1
        exact hcd1
      subst hb
      have hm : (match some parent with
                 | some parent => create_dir_all st.fs parent
                 | none => (true, st.fs)) = (true, fs1) := hcd
      rw [hm]
      refine ⟨rfl, rfl, fun p => ?_⟩
      have hframe := createDirs_frame (ancestorPrefixes parent) st.fs p
      have hfs1 : (createDirs st.fs (ancestorPrefixes parent)).2 = fs1 := by
        rw [show createDirs st.fs (ancestorPrefixes parent) =
          create_dir_all st.fs parent from rfl, hcd]
      rw [hfs1] at hframe
      exact hframe

/-- C2 witness for the amended theorem, at the concrete duplicate
state. -/
theorem C2_duplicate_amended_witness :
    fsExists fsDup "/src" = true ∧
    fsIsFile fsDup "/src" = true ∧
    FileMappings.contains ["cw"] ["home", "u"] fmDup "/src" = true ∧
    (App.link ["cw"] ["home", "u"] "/ws" ⟨fsDup, fmDup⟩ "/src" "sub/f").2.fm = fmDup :=
  ⟨by decide, by decide, by decide,
    (C2_duplicate_amended ["cw"] ["home", "u"] "/ws" ⟨fsDup, fmDup⟩ "/src" "sub/f"
      (by decide) (by decide) (by decide)
      (by
        intro parent hp
        rw [show parentOf (pathJoin "/ws" "sub/f") = some "/ws/sub" by decide] at hp
        cases hp
        decide)).2.1⟩

/-- C3 (amended): when the source exists but does not resolve (through
symlinks) to a regular file — in particular when it is a directory —
`link` fails with the invalid-source error and leaves the filesystem
and the mapping table untouched. -/
theorem C3_invalid_source_amended (cwd home : List String) (ws : String)
    (st : AppState) (source dest : String)
    (h1 : fsExists st.fs source = true)
    (h2 : fsIsFile st.fs source = false) :
    App.link cwd home ws st source dest = (LinkResult.srcNotRegular, st) := by
  have hn1 : ¬ (fsExists st.fs source = false) := by
    rw [h1]
    intro e
    cases e
  unfold App.link
  rw [if_neg hn1, if_pos h2]

/-- C3 witness for the amended theorem: a directory source. -/
theorem C3_invalid_source_amended_witness :
    fsExists fsDir "/srcdir" = true ∧
    fsIsFile fsDir "/srcdir" = false ∧
    App.link ["cw"] ["home", "u"] "/ws" ⟨fsDir, ⟨[], "/ws"⟩⟩ "/srcdir" "d" =
      (LinkResult.srcNotRegular, ⟨fsDir, ⟨[], "/ws"⟩⟩) :=
  ⟨by decide, by decide,
    C3_invalid_source_amended ["cw"] ["home", "u"] "/ws" ⟨fsDir, ⟨[], "/ws"⟩⟩
      "/srcdir" "d" (by decide) (by decide)⟩

/-!
Lemmas for the persistence round trip.
-/

theorem listLt_irrefl (l : List Char) : listLt l l = false := by
  induction l with
  | nil => rfl
  | cons a as ih =>
    unfold listLt
    rw [if_neg (Nat.lt_irrefl a.toNat), if_neg (Nat.lt_irrefl a.toNat)]
    exact ih

theorem listLt_asymm (a b : List Char) (h : listLt a b = true) :
    listLt b a = false := by
  induction a generalizing b with
  | nil =>
    cases b with
    | nil => cases h
    | cons bh bt => rfl
  | cons ah at' ih =>
    cases b with
    | nil => cases h
    | cons bh bt =>
      unfold listLt at h ⊢
      by_cases h1 : ah.toNat < bh.toNat
      · rw [if_neg (by omega : ¬ bh.toNat < ah.toNat), if_pos h1]
      · by_cases h2 : bh.toNat < ah.toNat
        · rw [if_neg h1, if_pos h2] at h
          cases h
        · rw [if_neg h1, if_neg h2] at h
          rw [if_neg h2, if_neg h1]
          exact ih bt h

theorem keyLt_irrefl (s : String) : keyLt s s = false := listLt_irrefl s.data

theorem keyLt_asymm (a b : String) (h : keyLt a b = true) : keyLt b a = false :=
  listLt_asymm a.data b.data h

theorem btInsert_append (es : List (String × String)) (k v : String)
    (h : ∀ kv ∈ es, keyLt kv.1 k = true) :
    btInsert es k v = es ++ [(k, v)] := by
  induction es with
  | nil => rfl
  | cons e t ih =>
    obtain ⟨k', v'⟩ := e
    have hk' : keyLt k' k = true := h (k', v') (List.mem_cons_self _ _)
    have h1 : keyLt k k' = false := keyLt_asymm k' k hk'
    have h2 : ¬ k = k' := by
      intro e
      subst e
      rw [keyLt_irrefl] at hk'
      cases hk'
    unfold btInsert
    rw [if_neg (by rw [h1]; intro e; cases e), if_neg h2,
      ih (fun kv hkv => h kv (List.mem_cons_of_mem _ hkv))]
    rfl

theorem foldl_btInsert_sorted (es acc : List (String × String))
    (h : (acc ++ es).Pairwise (fun a b => keyLt a.1 b.1 = true)) :
    es.foldl (fun m kv => btInsert m kv.1 kv.2) acc = acc ++ es := by
  induction es generalizing acc with
  | nil => simp
  | cons kv t ih =>
    have hlt : ∀ e ∈ acc, keyLt e.1 kv.1 = true := by
      intro e he
      exact (List.pairwise_append.mp h).2.2 e he kv (List.mem_cons_self kv t)
    rw [List.foldl_cons]
    have hin : btInsert acc kv.1 kv.2 = acc ++ [kv] := by
      rw [btInsert_append acc kv.1 kv.2 hlt]
    rw [hin, ih (acc ++ [kv]) (by simpa [List.append_assoc] using h)]
    simp

theorem hexVal_hexDigit : ∀ m, m < 16 → hexVal (hexDigit m) = some m := by decide

theorem scanStr_quote (rest : List Char) : scanStr ('"' :: rest) = some ([], rest) := by
  conv_lhs => unfold scanStr
  rw [if_pos rfl]

theorem scanStr_plain (c : Char) (rest : List Char) (h1 : ¬ c = '"')
    (h2 : ¬ c = '\\') :
    scanStr (c :: rest) = (scanStr rest).map (fun pr => (c :: pr.1, pr.2)) := by
  conv_lhs => unfold scanStr
  rw [if_neg h1, if_neg h2]

theorem scanStr_esc (e c' : Char) (rest : List Char) (he : ¬ e = 'u')
    (hc : unescChar e = some c') :
    scanStr ('\\' :: e :: rest) =
      (scanStr rest).map (fun pr => (c' :: pr.1, pr.2)) := by
  conv_lhs => unfold scanStr
  rw [if_neg (by decide : ¬ ('\\' : Char) = '"'), if_pos rfl]
  simp only [if_neg he, hc]

theorem scanStr_u (c : Char) (rest : List Char) (hlt : c.toNat < 0x20) :
    scanStr ('\\' :: 'u' :: '0' :: '0' ::
        hexDigit (c.toNat / 16) :: hexDigit (c.toNat % 16) :: rest) =
      (scanStr rest).map (fun pr => (c :: pr.1, pr.2)) := by
  have hdiv : c.toNat / 16 < 16 := by omega
  have hmod : c.toNat % 16 < 16 := Nat.mod_lt _ (by omega)
  have h0 : hexVal '0' = some 0 := by decide
  have hd : hexVal (hexDigit (c.toNat / 16)) = some (c.toNat / 16) :=
    hexVal_hexDigit _ hdiv
  have hm : hexVal (hexDigit (c.toNat % 16)) = some (c.toNat % 16) :=
    hexVal_hexDigit _ hmod
  have hn : ((0 * 16 + 0) * 16 + c.toNat / 16) * 16 + c.toNat % 16 = c.toNat := by
    omega
  have hn2 : c.toNat / 16 * 16 + c.toNat % 16 = c.toNat := by omega
  conv_lhs => unfold scanStr
  rw [if_neg (by decide : ¬ ('\\' : Char) = '"'), if_pos rfl]
  simp [h0, hd, hm, hn, hn2, Char.ofNat_toNat, (by omega : c.toNat < 0xd800)]

theorem scanStr_escChar (c : Char) (X : List Char) :
    scanStr (escChar c ++ X) = (scanStr X).map (fun pr => (c :: pr.1, pr.2)) := by
  by_cases h1 : c = '"'
  · subst h1
    rw [show escChar '"' = ['\\', '"'] from rfl]
    exact scanStr_esc '"' '"' X (by decide) (by decide)
  · by_cases h2 : c = '\\'
    · subst h2
      rw [show escChar '\\' = ['\\', '\\'] from rfl]
      exact scanStr_esc '\\' '\\' X (by decide) (by decide)
    · by_cases h3 : c = '\x08'
      · subst h3
        rw [show escChar '\x08' = ['\\', 'b'] from rfl]
        exact scanStr_esc 'b' '\x08' X (by decide) (by decide)
      · by_cases h4 : c = '\x09'
        · subst h4
          rw [show escChar '\x09' = ['\\', 't'] from rfl]
          exact scanStr_esc 't' '\x09' X (by decide) (by decide)
        · by_cases h5 : c = '\x0a'
          · subst h5
            rw [show escChar '\x0a' = ['\\', 'n'] from rfl]
            exact scanStr_esc 'n' '\x0a' X (by decide) (by decide)
          · by_cases h6 : c = '\x0c'
            · subst h6
              rw [show escChar '\x0c' = ['\\', 'f'] from rfl]
              exact scanStr_esc 'f' '\x0c' X (by decide) (by decide)
            · by_cases h7 : c = '\x0d'
              · subst h7
                rw [show escChar '\x0d' = ['\\', 'r'] from rfl]
                exact scanStr_esc 'r' '\x0d' X (by decide) (by decide)
              · by_cases h8 : c.toNat < 0x20
                · have hesc : escChar c = ['\\', 'u', '0', '0',
                      hexDigit (c.toNat / 16), hexDigit (c.toNat % 16)] := by
                    unfold escChar
                    rw [if_neg h1, if_neg h2, if_neg h3, if_neg h4, if_neg h5,
                      if_neg h6, if_neg h7, if_pos h8]
                  rw [hesc]
                  exact scanStr_u c X h8
                · have hesc : escChar c = [c] := by
                    unfold escChar
                    rw [if_neg h1, if_neg h2, if_neg h3, if_neg h4, if_neg h5,
                      if_neg h6, if_neg h7, if_neg h8]
                  rw [hesc]
                  exact scanStr_plain c X h1 h2

theorem scanStr_escape_chars (l rest : List Char) :
    scanStr ((l.map escChar).flatten ++ '"' :: rest) = some (l, rest) := by
  induction l with
  | nil => simpa using scanStr_quote rest
  | cons c t ih =>
    rw [List.map_cons, List.flatten_cons, List.append_assoc, scanStr_escChar c _, ih]
    rfl

theorem scanStr_escape (s : String) (rest : List Char) :
    scanStr (escape s ++ '"' :: rest) = some (s.data, rest) :=
  scanStr_escape_chars s.data rest

theorem skipWs_cons_of (c : Char) (h : isWs c = true) (l : List Char) :
    skipWs (c :: l) = skipWs l := by
  conv_lhs => unfold skipWs
  rw [if_pos h]

theorem skipWs_cons_not (c : Char) (h : isWs c = false) (l : List Char) :
    skipWs (c :: l) = c :: l := by
  conv_lhs => unfold skipWs
  rw [if_neg (by rw [h]; intro e; cases e)]

theorem skipWs_idem (l : List Char) : skipWs (skipWs l) = skipWs l := by
  induction l with
  | nil => rfl
  | cons c t ih =>
    by_cases h : isWs c = true
    · rw [skipWs_cons_of c h t]
      exact ih
    · have h' : isWs c = false := by
        cases hc : isWs c
        · rfl
        · exact absurd hc h
      rw [skipWs_cons_not c h' t, skipWs_cons_not c h' t]

theorem expectChar_cons (c : Char) (l : List Char) :
    expectChar c (c :: l) = some l := by
  show (if c = c then some l else none) = some l
  rw [if_pos rfl]

theorem expectChar_ne (c x : Char) (l : List Char) (h : ¬ x = c) :
    expectChar c (x :: l) = none := by
  show (if x = c then some l else none) = none
  rw [if_neg h]

theorem parseMembers_ws (fuel : Nat) (c : Char) (h : isWs c = true)
    (x : List Char) : parseMembers fuel (c :: x) = parseMembers fuel x := by
  cases fuel with
  | zero => rfl
  | succ f =>
    unfold parseMembers
    rw [skipWs_cons_of c h x]

theorem parseMembers_skipWs (fuel : Nat) (x : List Char) :
    parseMembers fuel (skipWs x) = parseMembers fuel x := by
  cases fuel with
  | zero => rfl
  | succ f =>
    unfold parseMembers
    rw [skipWs_idem x]

theorem parseMembers_step (fuel : Nat) (kv : String × String) (tail : List Char) :
    parseMembers (fuel + 1) (memberChars kv ++ tail) =
      (match skipWs tail with
       | [] => none
       | c :: r7 =>
         if c = ',' then
           match parseMembers fuel r7 with
           | none => none
           | some (more, r8) => some (kv :: more, r8)
         else if c = '\x7d' then some ([kv], r7)
         else none) := by
  obtain ⟨k, v⟩ := kv
  conv_lhs => unfold parseMembers
  rw [show memberChars (k, v) ++ tail =
      ' ' :: ' ' :: '"' ::
        ((escape k ++ '"' :: ':' :: ' ' :: '"' :: (escape v ++ ['"'])) ++ tail)
    from rfl]
  simp only [skipWs_cons_of ' ' (by decide), skipWs_cons_not '"' (by decide),
    expectChar_cons, List.append_assoc, List.cons_append, List.singleton_append,
    List.nil_append, scanStr_escape, skipWs_cons_not ':' (by decide)]

theorem membersChars_length (es : List (String × String)) :
    es.length ≤ (membersChars es).length := by
  induction es with
  | nil => simp [membersChars]
  | cons kv t ih =>
    cases t with
    | nil =>
      show 1 ≤ (memberChars kv).length
      simp [memberChars]
    | cons kv2 t2 =>
      rw [show membersChars (kv :: kv2 :: t2) =
          memberChars kv ++ ',' :: '\n' :: membersChars (kv2 :: t2) from rfl]
      simp only [List.length_append, List.length_cons] at ih ⊢
      omega

theorem parseMembers_print (es : List (String × String)) :
    ∀ (rest : List Char) (fuel : Nat), es.length ≤ fuel → es ≠ [] →
      parseMembers fuel (membersChars es ++ '\n' :: '\x7d' :: rest) =
        some (es, rest) := by
  induction es with
  | nil =>
    intro rest fuel hf hne
    exact absurd rfl hne
  | cons kv t ih =>
    intro rest fuel hf hne
    cases t with
    | nil =>
      cases fuel with
      | zero => simp at hf
      | succ f =>
        show parseMembers (f + 1) (memberChars kv ++ ('\n' :: '\x7d' :: rest)) = _
        rw [parseMembers_step f kv ('\n' :: '\x7d' :: rest)]
        simp only [skipWs_cons_of '\n' (by decide),
          skipWs_cons_not '\x7d' (by decide)]
        simp
    | cons kv2 t2 =>
      cases fuel with
      | zero => simp at hf
      | succ f =>
        have hf' : (kv2 :: t2).length ≤ f := by
          simp only [List.length_cons] at hf ⊢
          omega
        have hsplit : membersChars (kv :: kv2 :: t2) ++ '\n' :: '\x7d' :: rest =
            memberChars kv ++
              (',' :: '\n' :: (membersChars (kv2 :: t2) ++ '\n' :: '\x7d' :: rest)) := by
          rw [show membersChars (kv :: kv2 :: t2) =
              memberChars kv ++ ',' :: '\n' :: membersChars (kv2 :: t2) from rfl,
            List.append_assoc]
          rfl
        rw [hsplit, parseMembers_step f kv _]
        simp only [skipWs_cons_not ',' (by decide)]
        rw [if_pos trivial, parseMembers_ws f '\n' (by decide),
          ih rest f hf' (by simp)]

theorem membersChars_cons_decomp (kv : String × String)
    (t : List (String × String)) (tail : List Char) :
    ∃ R, membersChars (kv :: t) ++ tail = memberChars kv ++ R := by
  cases t with
  | nil => exact ⟨tail, rfl⟩
  | cons m t2 =>
    refine ⟨',' :: '\n' :: (membersChars (m :: t2) ++ tail), ?_⟩
    rw [show membersChars (kv :: m :: t2) =
        memberChars kv ++ ',' :: '\n' :: membersChars (m :: t2) from rfl,
      List.append_assoc]
    rfl

theorem load_save_entries (ws : String) (es : List (String × String))
    (hsorted : entriesSorted es) :
    load_entries ws (save_entries es) = some ⟨es, ws⟩ := by
  cases es with
  | nil => rfl
  | cons kv t =>
    unfold load_entries
    have hdata : (save_entries (kv :: t)).data =
        '\x7b' :: '\n' :: (membersChars (kv :: t) ++ ['\n', '\x7d']) := rfl
    rw [hdata]
    unfold parseObj
    simp only [skipWs_cons_not '\x7b' (by decide), expectChar_cons]
    obtain ⟨R, hR⟩ := membersChars_cons_decomp kv t ['\n', '\x7d']
    have hskip : skipWs ('\n' :: (membersChars (kv :: t) ++ ['\n', '\x7d'])) =
        '"' :: ((escape kv.1 ++ '"' :: ':' :: ' ' :: '"' :: (escape kv.2 ++ ['"'])) ++ R) := by
      rw [skipWs_cons_of '\n' (by decide), hR,
        show memberChars kv ++ R =
          ' ' :: ' ' :: '"' ::
            ((escape kv.1 ++ '"' :: ':' :: ' ' :: '"' :: (escape kv.2 ++ ['"'])) ++ R)
          from rfl,
        skipWs_cons_of ' ' (by decide), skipWs_cons_of ' ' (by decide),
        skipWs_cons_not '"' (by decide)]
    have hexp : expectChar '\x7d'
        (skipWs ('\n' :: (membersChars (kv :: t) ++ ['\n', '\x7d']))) = none := by
      rw [hskip]
      exact expectChar_ne '\x7d' '"' _ (by decide)
    simp only [hexp]
    simp only [parseMembers_skipWs, parseMembers_ws _ '\n' (by decide)]
    have hfuel : (kv :: t).length ≤
        ('\x7b' :: '\n' :: (membersChars (kv :: t) ++ ['\n', '\x7d'])).length + 1 := by
      have := membersChars_length (kv :: t)
      simp only [List.length_cons, List.length_append] at this ⊢
      omega
    rw [parseMembers_print (kv :: t) [] _ hfuel (by simp)]
    simp [foldl_btInsert_sorted (kv :: t) [] (by simpa using hsorted),
      (rfl : skipWs [] = [])]
    rfl

/-- C10: for every mapping table (sorted entries, the `BTreeMap`
invariant), `save` followed by `load` reproduces exactly the same
entries, and for a byte stream produced by `save`, saving the loaded
table reproduces the stream byte for byte (serialization is
deterministic with the stored lexicographic key order). -/
theorem C10_persistence_round_trip (ws : String) (es : List (String × String))
    (h : entriesSorted es) :
    load_entries ws (save_entries es) = some ⟨es, ws⟩ ∧
    (load_entries ws (save_entries es)).map (fun fm => save_entries fm.entries) =
      some (save_entries es) := by
  have h1 := load_save_entries ws es h
  exact ⟨h1, by rw [h1]; rfl⟩

/-- C10 witness at a concrete two-entry table. -/
theorem C10_persistence_round_trip_witness :
    entriesSorted [("a", "1"), ("b", "2")] ∧
    load_entries "w" (save_entries [("a", "1"), ("b", "2")]) =
      some ⟨[("a", "1"), ("b", "2")], "w"⟩ :=
  ⟨by decide,
    (C10_persistence_round_trip "w" [("a", "1"), ("b", "2")] (by decide)).1⟩

/-- C3 counterexample: a source that is already a symbolic link (to a
regular file) is accepted, `link` completes, mutates the filesystem and
registers a mapping — it does not fail with the invalid-source
error. -/
theorem C3_counterexample :
    fsSym "/src" = FsNode.symlink "/t" ∧
    resolveNode fsSym 64 "/src" = FsNode.file ∧
    (App.link ["cw"] ["home", "u"] "/ws" ⟨fsSym, ⟨[], "/ws"⟩⟩ "/src" "f").1 =
      LinkResult.linked ∧
    (App.link ["cw"] ["home", "u"] "/ws" ⟨fsSym, ⟨[], "/ws"⟩⟩ "/src" "f").2.fm.entries =
      [("/src", "f")] ∧
    (App.link ["cw"] ["home", "u"] "/ws" ⟨fsSym, ⟨[], "/ws"⟩⟩ "/src" "f").2.fs "/src" =
      FsNode.symlink "/ws/f" := by decide

end Dotman
